import Mathlib

/-!
Bidirectional map (`bimap.go`).

A shallow embedding of the Go package `bimap`: the type `BidirectionalMap`
with its two maps `m1` (key to value) and `m2` (value to key), the methods
`insert`, `findByKey`, `findByValue`, `find` and the constructor `newBDMap`.

A Go `map[string]string` is embedded as a partial function from strings to
strings: `m k = some v` when the map holds `v` under `k`, and `m k = none`
when `k` is not a key.  The comma-ok read `val, found := m[k]` is the
`Option` returned by the function, and the assignment `m[k] = v` is the
pointwise update `GoMap.set`.  The two maps of a `BidirectionalMap` are two
separate, allocated maps, as `newBDMap` makes them.

The argument of `newBDMap` is a Go map that is only ranged over.  It is
embedded as the list of its entries in the order in which `range` yields
them (`none` for a `nil` map).  The keys of a Go map are unique, so such a
list has pairwise distinct keys, and two iteration orders of the same map
are permutations of each other.
-/

namespace Bimap

/-- A Go `map[string]string` as a partial function. -/
abbrev GoMap := String → Option String

/-- The result of `make(map[string]string)`: no key is present. -/
def GoMap.empty : GoMap := fun _ => none

/-- The assignment `m[k] = v`. -/
def GoMap.set (m : GoMap) (k v : String) : GoMap :=
  fun x => if x = k then some v else m x

/-- The struct `BidirectionalMap` with its fields `m1` and `m2`. -/
structure BidirectionalMap where
  m1 : GoMap
  m2 : GoMap

namespace BidirectionalMap

/-- The method `insert`: `m.m1[key], m.m2[value] = value, key`. -/
def insert (m : BidirectionalMap) (key value : String) : BidirectionalMap :=
  { m1 := m.m1.set key value, m2 := m.m2.set value key }

/-- The method `findByKey`. -/
def findByKey (m : BidirectionalMap) (key : String) : String :=
  match m.m1 key with
  | some val => val
  | none => ""

/-- The method `findByValue`. -/
def findByValue (m : BidirectionalMap) (value : String) : String :=
  match m.m2 value with
  | some key => key
  | none => ""

/-- The method `find`: the keys are tried first, then the values. -/
def find (m : BidirectionalMap) (str : String) : String :=
  match m.m1 str with
  | some val => val
  | none =>
    match m.m2 str with
    | some key => key
    | none => ""

end BidirectionalMap

open BidirectionalMap

/-- The loop `for key, val := range from { bm.insert(key, val) }` over the
entries in the order in which they are yielded. -/
def rangeInsert (bm : BidirectionalMap) : List (String × String) → BidirectionalMap
  | [] => bm
  | (key, val) :: rest => rangeInsert (bm.insert key val) rest

/-- The constructor `newBDMap`; `none` is the `nil` map. -/
def newBDMap (src : Option (List (String × String))) : BidirectionalMap :=
  let bm : BidirectionalMap := { m1 := GoMap.empty, m2 := GoMap.empty }
  match src with
  | some entries => rangeInsert bm entries
  | none => bm

/-- A sequence of calls `insert(k, v)` made one after the other. -/
def insertMany (m : BidirectionalMap) : List (String × String) → BidirectionalMap
  | [] => m
  | (k, v) :: rest => insertMany (m.insert k v) rest

/-- The entries of the map `m` that `main` builds, in the order of the literal. -/
def mainEntries : List (String × String) :=
  [("one", "1"), ("two", "2"), ("three", "3")]

/-- The container of `main` when its first print is reached: `newBDMap(m)`
ranging over `m` in the given order, then `insert("four", "4")` and
`insert("five", "5")`. -/
def mainBDMap (order : List (String × String)) : BidirectionalMap :=
  ((newBDMap (some order)).insert "four" "4").insert "five" "5"

/-- The container with the roles of its two maps exchanged. -/
def BidirectionalMap.swap (m : BidirectionalMap) : BidirectionalMap :=
  { m1 := m.m2, m2 := m.m1 }

/-- The two maps mirror each other: `m1[k] == v` exactly when `m2[v] == k`. -/
def Mirror (m : BidirectionalMap) : Prop :=
  ∀ k v : String, m.m1 k = some v ↔ m.m2 v = some k

/-- The call `insert(k, v)` overwrites nothing in `m`: `k` is not a key of
`m1` or is mapped to `v` already, and `v` is not a key of `m2` or is mapped to
`k` already. -/
def Agrees (m : BidirectionalMap) (k v : String) : Prop :=
  (m.m1 k = none ∨ m.m1 k = some v) ∧ (m.m2 v = none ∨ m.m2 v = some k)

/-- Every call of the sequence overwrites nothing in the state it is made in. -/
def AgreesAll : BidirectionalMap → List (String × String) → Prop
  | _, [] => True
  | m, (k, v) :: rest => Agrees m k v ∧ AgreesAll (m.insert k v) rest

/-- The entries that `newBDMap` ranges over: none for the `nil` map. -/
def entriesOf : Option (List (String × String)) → List (String × String)
  | some entries => entries
  | none => []

/-- No key of the sequence comes with two different values and no value with
two different keys. -/
def Consistent (l : List (String × String)) : Prop :=
  ∀ p ∈ l, ∀ q ∈ l, (p.1 = q.1 ↔ p.2 = q.2)

/-- The key of the last entry of the sequence that carries the value `v`. -/
def lastKeyFor (v : String) : List (String × String) → Option String
  | [] => none
  | (key, val) :: rest =>
    match lastKeyFor v rest with
    | some k => some k
    | none => if val = v then some key else none

/-!
The same program with the run-time panic of Go made explicit.  A field of
the struct may hold the `nil` map (`none`), as both do in the zero value
`BidirectionalMap{}`; an assignment to an entry of the `nil` map panics
(`Except.error`), a read of the `nil` map finds nothing.
-/

namespace Checked

/-- The struct `BidirectionalMap`; `none` in a field is the `nil` map. -/
structure BidirectionalMap where
  m1 : Option GoMap
  m2 : Option GoMap

/-- The assignment `m[k] = v`, which panics when `m` is `nil`. -/
def assign (m : Option GoMap) (k v : String) : Except String (Option GoMap) :=
  match m with
  | some f => Except.ok (some (f.set k v))
  | none => Except.error "assignment to entry in nil map"

/-- The comma-ok read `val, found := m[k]`; the `nil` map has no entry. -/
def read (m : Option GoMap) (k : String) : Option String :=
  match m with
  | some f => f k
  | none => none

/-- The method `insert`: `m.m1[key], m.m2[value] = value, key`, the left
assignment made first. -/
def BidirectionalMap.insert (m : BidirectionalMap) (key value : String) :
    Except String BidirectionalMap :=
  match assign m.m1 key value with
  | Except.error e => Except.error e
  | Except.ok m1 =>
    match assign m.m2 value key with
    | Except.error e => Except.error e
    | Except.ok m2 => Except.ok { m1 := m1, m2 := m2 }

/-- The method `findByKey`. -/
def BidirectionalMap.findByKey (m : BidirectionalMap) (key : String) : String :=
  match read m.m1 key with
  | some val => val
  | none => ""

/-- The method `findByValue`. -/
def BidirectionalMap.findByValue (m : BidirectionalMap) (value : String) : String :=
  match read m.m2 value with
  | some key => key
  | none => ""

/-- The method `find`. -/
def BidirectionalMap.find (m : BidirectionalMap) (str : String) : String :=
  match read m.m1 str with
  | some val => val
  | none =>
    match read m.m2 str with
    | some key => key
    | none => ""

/-- The loop of `newBDMap`; a panic of `insert` ends it. -/
def rangeInsert (bm : BidirectionalMap) :
    List (String × String) → Except String BidirectionalMap
  | [] => Except.ok bm
  | (key, val) :: rest =>
    match bm.insert key val with
    | Except.error e => Except.error e
    | Except.ok next => rangeInsert next rest

/-- The constructor `newBDMap`: both fields are made with `make`. -/
def newBDMap (src : Option (List (String × String))) : Except String BidirectionalMap :=
  let bm : BidirectionalMap := { m1 := some GoMap.empty, m2 := some GoMap.empty }
  match src with
  | some entries => rangeInsert bm entries
  | none => Except.ok bm

/-- A sequence of calls `insert(k, v)`; a panic ends it. -/
def insertMany (m : BidirectionalMap) :
    List (String × String) → Except String BidirectionalMap
  | [] => Except.ok m
  | (k, v) :: rest =>
    match m.insert k v with
    | Except.error e => Except.error e
    | Except.ok next => insertMany next rest

/-- A container whose two maps are allocated. -/
def allocated (m : Bimap.BidirectionalMap) : BidirectionalMap :=
  { m1 := some m.m1, m2 := some m.m2 }

end Checked

/-! Basic facts about the maps. -/

theorem set_same (m : GoMap) (k v : String) : m.set k v k = some v := by
  simp [GoMap.set]

theorem set_other (m : GoMap) (k v x : String) (h : x ≠ k) : m.set k v x = m x := by
  simp [GoMap.set, h]

theorem insert_m1 (m : BidirectionalMap) (k v : String) :
    (m.insert k v).m1 = m.m1.set k v := rfl

theorem insert_m2 (m : BidirectionalMap) (k v : String) :
    (m.insert k v).m2 = m.m2.set v k := rfl

theorem rangeInsert_eq_insertMany (m : BidirectionalMap) (l : List (String × String)) :
    rangeInsert m l = insertMany m l := by
  induction l generalizing m with
  | nil => rfl
  | cons p rest ih =>
    obtain ⟨k, v⟩ := p
    simp only [rangeInsert, insertMany]
    exact ih _

/-- A key that no later call uses keeps its slot of `m1`. -/
theorem insertMany_m1_frame (m : BidirectionalMap) (ops : List (String × String)) (k : String)
    (hk : ∀ p ∈ ops, p.1 ≠ k) : (insertMany m ops).m1 k = m.m1 k := by
  induction ops generalizing m with
  | nil => rfl
  | cons p rest ih =>
    obtain ⟨a, b⟩ := p
    have hne : k ≠ a := fun h => hk (a, b) (List.mem_cons_self _ _) h.symm
    have hrest : ∀ q ∈ rest, q.1 ≠ k := fun q hq => hk q (List.mem_cons_of_mem _ hq)
    simp only [insertMany]
    rw [ih _ hrest, insert_m1, set_other _ _ _ _ hne]

/-- A value that no later call uses keeps its slot of `m2`. -/
theorem insertMany_m2_frame (m : BidirectionalMap) (ops : List (String × String)) (v : String)
    (hv : ∀ p ∈ ops, p.2 ≠ v) : (insertMany m ops).m2 v = m.m2 v := by
  induction ops generalizing m with
  | nil => rfl
  | cons p rest ih =>
    obtain ⟨a, b⟩ := p
    have hne : v ≠ b := fun h => hv (a, b) (List.mem_cons_self _ _) h.symm
    have hrest : ∀ q ∈ rest, q.2 ≠ v := fun q hq => hv q (List.mem_cons_of_mem _ hq)
    simp only [insertMany]
    rw [ih _ hrest, insert_m2, set_other _ _ _ _ hne]

/-- A call that overwrites nothing keeps the two maps mirrors of each other. -/
theorem Mirror.insert_of_agrees {m : BidirectionalMap} (hm : Mirror m) {k v : String}
    (ha : Agrees m k v) : Mirror (m.insert k v) := by
  intro a b
  rw [insert_m1, insert_m2]
  by_cases hak : a = k <;> by_cases hbv : b = v
  · subst hak; subst hbv
    simp [set_same]
  · subst hak
    rw [set_same, set_other _ _ _ _ hbv]
    constructor
    · intro h
      exact absurd (Option.some.inj h).symm hbv
    · intro h
      have h1 : m.m1 a = some b := (hm a b).mpr h
      rcases ha.1 with h0 | h0
      · rw [h0] at h1; cases h1
      · rw [h0] at h1; exact h1
  · subst hbv
    rw [set_same, set_other _ _ _ _ hak]
    constructor
    · intro h
      have h2 : m.m2 b = some a := (hm a b).mp h
      rcases ha.2 with h0 | h0
      · rw [h0] at h2; cases h2
      · rw [h0] at h2; exact h2
    · intro h
      exact absurd (Option.some.inj h).symm hak
  · rw [set_other _ _ _ _ hak, set_other _ _ _ _ hbv]
    exact hm a b

theorem Mirror.insertMany_of_agreesAll {m : BidirectionalMap} (hm : Mirror m)
    {ops : List (String × String)} (ha : AgreesAll m ops) : Mirror (insertMany m ops) := by
  induction ops generalizing m with
  | nil => exact hm
  | cons p rest ih =>
    obtain ⟨k, v⟩ := p
    exact ih (hm.insert_of_agrees ha.1) ha.2

theorem mirror_empty : Mirror { m1 := GoMap.empty, m2 := GoMap.empty } := by
  intro k v
  simp [GoMap.empty]

/-- Entries with pairwise distinct keys and pairwise distinct values, none of
them in the maps yet, overwrite nothing. -/
theorem agreesAll_of_nodup (m : BidirectionalMap) (l : List (String × String))
    (hk : (l.map Prod.fst).Nodup) (hv : (l.map Prod.snd).Nodup)
    (hm : ∀ p ∈ l, m.m1 p.1 = none ∧ m.m2 p.2 = none) : AgreesAll m l := by
  induction l generalizing m with
  | nil => trivial
  | cons p rest ih =>
    obtain ⟨k, v⟩ := p
    rw [List.map_cons, List.nodup_cons] at hk hv
    refine ⟨⟨Or.inl (hm (k, v) (List.mem_cons_self _ _)).1,
      Or.inl (hm (k, v) (List.mem_cons_self _ _)).2⟩, ?_⟩
    apply ih _ hk.2 hv.2
    intro q hq
    have hq1 : q.1 ≠ k := fun h => hk.1 (List.mem_map.mpr ⟨q, hq, h⟩)
    have hq2 : q.2 ≠ v := fun h => hv.1 (List.mem_map.mpr ⟨q, hq, h⟩)
    rw [insert_m1, insert_m2, set_other _ _ _ _ hq1, set_other _ _ _ _ hq2]
    exact hm q (List.mem_cons_of_mem _ hq)

/-- An entry of a list with pairwise distinct keys is what `m1` holds after
the list has been inserted. -/
theorem insertMany_m1_of_mem (m : BidirectionalMap) (l : List (String × String))
    (hk : (l.map Prod.fst).Nodup) {k v : String} (h : (k, v) ∈ l) :
    (insertMany m l).m1 k = some v := by
  induction l generalizing m with
  | nil => cases h
  | cons p rest ih =>
    obtain ⟨a, b⟩ := p
    rw [List.map_cons, List.nodup_cons] at hk
    simp only [insertMany]
    rcases List.mem_cons.mp h with heq | hmem
    · obtain ⟨rfl, rfl⟩ := Prod.mk.inj heq
      have hfr : ∀ q ∈ rest, q.1 ≠ k := fun q hq hqk => hk.1 (List.mem_map.mpr ⟨q, hq, hqk⟩)
      rw [insertMany_m1_frame _ _ _ hfr, insert_m1, set_same]
    · exact ih _ hk.2 hmem

/-- An entry of a list with pairwise distinct values is what `m2` holds after
the list has been inserted. -/
theorem insertMany_m2_of_mem (m : BidirectionalMap) (l : List (String × String))
    (hv : (l.map Prod.snd).Nodup) {k v : String} (h : (k, v) ∈ l) :
    (insertMany m l).m2 v = some k := by
  induction l generalizing m with
  | nil => cases h
  | cons p rest ih =>
    obtain ⟨a, b⟩ := p
    rw [List.map_cons, List.nodup_cons] at hv
    simp only [insertMany]
    rcases List.mem_cons.mp h with heq | hmem
    · obtain ⟨rfl, rfl⟩ := Prod.mk.inj heq
      have hfr : ∀ q ∈ rest, q.2 ≠ v := fun q hq hqv => hv.1 (List.mem_map.mpr ⟨q, hq, hqv⟩)
      rw [insertMany_m2_frame _ _ _ hfr, insert_m2, set_same]
    · exact ih _ hv.2 hmem

theorem newBDMap_some (l : List (String × String)) :
    newBDMap (some l) = insertMany { m1 := GoMap.empty, m2 := GoMap.empty } l := by
  simp only [newBDMap]
  exact rangeInsert_eq_insertMany _ l

/-- With pairwise distinct keys, `m1` of the new container is the source map. -/
theorem newBDMap_m1_iff (l : List (String × String)) (hk : (l.map Prod.fst).Nodup)
    (k v : String) : (newBDMap (some l)).m1 k = some v ↔ (k, v) ∈ l := by
  rw [newBDMap_some]
  constructor
  · intro h
    by_cases hmem : k ∈ l.map Prod.fst
    · obtain ⟨q, hq, hqk⟩ := List.mem_map.mp hmem
      obtain ⟨a, b⟩ := q
      simp only at hqk
      subst hqk
      rw [insertMany_m1_of_mem _ l hk hq] at h
      rw [← Option.some.inj h]
      exact hq
    · have hfr : ∀ q ∈ l, q.1 ≠ k := fun q hq hqk => hmem (List.mem_map.mpr ⟨q, hq, hqk⟩)
      rw [insertMany_m1_frame _ _ _ hfr] at h
      cases h
  · exact insertMany_m1_of_mem _ l hk

/-- With pairwise distinct values, `m2` of the new container is the inverse of
the source map. -/
theorem newBDMap_m2_iff (l : List (String × String)) (hv : (l.map Prod.snd).Nodup)
    (k v : String) : (newBDMap (some l)).m2 v = some k ↔ (k, v) ∈ l := by
  rw [newBDMap_some]
  constructor
  · intro h
    by_cases hmem : v ∈ l.map Prod.snd
    · obtain ⟨q, hq, hqv⟩ := List.mem_map.mp hmem
      obtain ⟨a, b⟩ := q
      simp only at hqv
      subst hqv
      rw [insertMany_m2_of_mem _ l hv hq] at h
      rw [← Option.some.inj h]
      exact hq
    · have hfr : ∀ q ∈ l, q.2 ≠ v := fun q hq hqv => hmem (List.mem_map.mpr ⟨q, hq, hqv⟩)
      rw [insertMany_m2_frame _ _ _ hfr] at h
      cases h
  · exact insertMany_m2_of_mem _ l hv

/-- Two iteration orders of a source map with pairwise distinct values give
the same container. -/
theorem newBDMap_perm {l l2 : List (String × String)} (hp : l2.Perm l)
    (hk : (l.map Prod.fst).Nodup) (hv : (l.map Prod.snd).Nodup) :
    newBDMap (some l2) = newBDMap (some l) := by
  have hk2 : (l2.map Prod.fst).Nodup := ((hp.map Prod.fst).nodup_iff).mpr hk
  have hv2 : (l2.map Prod.snd).Nodup := ((hp.map Prod.snd).nodup_iff).mpr hv
  have h1 : (newBDMap (some l2)).m1 = (newBDMap (some l)).m1 := by
    funext k
    apply Option.ext
    intro v
    simp only [Option.mem_def]
    rw [newBDMap_m1_iff l2 hk2, newBDMap_m1_iff l hk]
    exact hp.mem_iff
  have h2 : (newBDMap (some l2)).m2 = (newBDMap (some l)).m2 := by
    funext v
    apply Option.ext
    intro k
    simp only [Option.mem_def]
    rw [newBDMap_m2_iff l2 hv2, newBDMap_m2_iff l hv]
    exact hp.mem_iff
  cases hl2 : newBDMap (some l2) with
  | mk a b =>
    cases hl : newBDMap (some l) with
    | mk c d =>
      rw [hl2, hl] at h1 h2
      simp only at h1 h2
      rw [h1, h2]

/-! The claims. -/

/-- C1: in every container state and for all strings `key` and `value` (empty
or equal ones included), right after `insert(key, value)` the lookup
`findByKey(key)` returns `value` and `findByValue(value)` returns `key`. -/
theorem insert_then_lookup (m : BidirectionalMap) (key value : String) :
    (m.insert key value).findByKey key = value ∧
      (m.insert key value).findByValue value = key := by
  simp [findByKey, findByValue, insert_m1, insert_m2, set_same]

/-- C2, as stated, fails in two ways.  After `insert("k", "a")` and
`insert("k", "b")` on the empty container, `m2["a"]` is `"k"` while `m1["k"]`
is `"b"`, not `"a"`.  And `newBDMap` on the source map `{"a": "v", "b": "v"}`,
ranged over in this order, leaves `m1["a"]` equal to `"v"` while `m2["v"]` is
`"b"`, not `"a"`. -/
theorem mirror_fails_after_overwrite :
    ¬ ((insertMany (newBDMap none) [("k", "a"), ("k", "b")]).m1 "k" = some "a" ↔
        (insertMany (newBDMap none) [("k", "a"), ("k", "b")]).m2 "a" = some "k") ∧
      ¬ ((newBDMap (some [("a", "v"), ("b", "v")])).m1 "a" = some "v" ↔
        (newBDMap (some [("a", "v"), ("b", "v")])).m2 "v" = some "a") := by
  decide

/-- C2, amended: in every state reached from `newBDMap` on a source map with
pairwise distinct values (or on `nil`) by a sequence of `insert` calls none of
which overwrites an entry (each call finds its key absent from `m1` or mapped
to its value, and its value absent from `m2` or mapped to its key), the two
maps mirror each other: `m1[k] == v` exactly when `m2[v] == k`. -/
theorem mirror_of_no_overwrite (src : Option (List (String × String)))
    (ops : List (String × String))
    (hsrc : ∀ l, src = some l → (l.map Prod.fst).Nodup ∧ (l.map Prod.snd).Nodup)
    (hops : AgreesAll (newBDMap src) ops) :
    ∀ k v : String, (insertMany (newBDMap src) ops).m1 k = some v ↔
      (insertMany (newBDMap src) ops).m2 v = some k := by
  have hnew : Mirror (newBDMap src) := by
    cases src with
    | none => exact mirror_empty
    | some l =>
      obtain ⟨hk, hv⟩ := hsrc l rfl
      rw [newBDMap_some]
      apply mirror_empty.insertMany_of_agreesAll
      apply agreesAll_of_nodup _ l hk hv
      intro p _
      exact ⟨rfl, rfl⟩
  exact hnew.insertMany_of_agreesAll hops

theorem mirror_of_no_overwrite_witness :
    AgreesAll (newBDMap (some [("one", "1"), ("two", "2")])) [("three", "3"), ("one", "1")] ∧
      ((insertMany (newBDMap (some [("one", "1"), ("two", "2")]))
          [("three", "3"), ("one", "1")]).m1 "one" = some "1" ↔
        (insertMany (newBDMap (some [("one", "1"), ("two", "2")]))
          [("three", "3"), ("one", "1")]).m2 "1" = some "one") :=
  have h : AgreesAll (newBDMap (some [("one", "1"), ("two", "2")]))
      [("three", "3"), ("one", "1")] := by
    refine ⟨⟨?_, ?_⟩, ⟨?_, ?_⟩, trivial⟩ <;> decide
  ⟨h, mirror_of_no_overwrite (some [("one", "1"), ("two", "2")]) [("three", "3"), ("one", "1")]
    (by
      intro l hl
      cases hl
      exact ⟨by decide, by decide⟩) h "one" "1"⟩

/-- C3: from every container state, after `insert(k, v)` and any further
sequence of `insert` calls none of which uses the key `k` or the value `v`,
`findByKey(k)` is `v` and `findByValue(v)` is `k`. -/
theorem insert_survives_unrelated (m : BidirectionalMap) (k v : String)
    (ops : List (String × String)) (hk : ∀ p ∈ ops, p.1 ≠ k) (hv : ∀ p ∈ ops, p.2 ≠ v) :
    (insertMany (m.insert k v) ops).findByKey k = v ∧
      (insertMany (m.insert k v) ops).findByValue v = k := by
  simp [findByKey, findByValue, insertMany_m1_frame _ _ _ hk, insertMany_m2_frame _ _ _ hv,
    insert_m1, insert_m2, set_same]

theorem insert_survives_unrelated_witness :
    (∀ p ∈ [("b", "2"), ("c", "1x")], p.1 ≠ "a") ∧ (∀ p ∈ [("b", "2"), ("c", "1x")], p.2 ≠ "1") ∧
      (insertMany ((newBDMap none).insert "a" "1") [("b", "2"), ("c", "1x")]).findByKey "a" = "1" ∧
      (insertMany ((newBDMap none).insert "a" "1") [("b", "2"), ("c", "1x")]).findByValue "1"
        = "a" :=
  ⟨by decide, by decide,
    insert_survives_unrelated (newBDMap none) "a" "1" [("b", "2"), ("c", "1x")]
      (by decide) (by decide)⟩

/-- C4, as stated, fails: after `insert("a", "")` on the empty container
`find("a")` returns the empty string although `"a"` is a key of `m1`. -/
theorem find_empty_not_absent :
    ¬ (((newBDMap none).insert "a" "").find "a" = "" ↔
      (((newBDMap none).insert "a" "").m1 "a" = none ∧
        ((newBDMap none).insert "a" "").m2 "a" = none)) := by
  decide

/-- C4, amended: `find(s)` returns the empty string exactly when `s` is absent
from both maps or the entry that `find` selects (`m1[s]` when `s` is a key of
`m1`, otherwise `m2[s]`) is itself the empty string. -/
theorem find_empty_iff (m : BidirectionalMap) (s : String) :
    m.find s = "" ↔
      (m.m1 s = none ∧ m.m2 s = none) ∨ m.m1 s = some "" ∨
        (m.m1 s = none ∧ m.m2 s = some "") := by
  unfold find
  cases h1 : m.m1 s with
  | some a => simp
  | none =>
    cases h2 : m.m2 s with
    | some b => simp
    | none => simp

/-- C5: when `str` is a key of `m1`, `find(str)` returns `m1[str]`, also when
`str` is a key of `m2` as well; an entry `m2[str]` that differs from `m1[str]`
is not what `find` returns. -/
theorem find_key_precedence (m : BidirectionalMap) (str v : String)
    (h : m.m1 str = some v) :
    m.find str = v ∧ ∀ k, m.m2 str = some k → k ≠ v → m.find str ≠ k := by
  have hf : m.find str = v := by simp [find, h]
  refine ⟨hf, ?_⟩
  intro k _ hne hk
  exact hne (hk.symm.trans hf)

theorem find_key_precedence_witness :
    (insertMany (newBDMap none) [("a", "b"), ("c", "a")]).m1 "a" = some "b" ∧
      (insertMany (newBDMap none) [("a", "b"), ("c", "a")]).m2 "a" = some "c" ∧
      (insertMany (newBDMap none) [("a", "b"), ("c", "a")]).find "a" = "b" ∧
      (insertMany (newBDMap none) [("a", "b"), ("c", "a")]).find "a" ≠ "c" :=
  have h := find_key_precedence (insertMany (newBDMap none) [("a", "b"), ("c", "a")]) "a" "b"
    (by decide)
  ⟨by decide, by decide, h.1, h.2 "c" (by decide) (by decide)⟩

/-- C6: when `str` is not a key of `m1`, `find(str)` is `findByValue(str)`:
`m2[str]` when `str` is a key of `m2`, the empty string otherwise. -/
theorem find_fallback (m : BidirectionalMap) (str : String) (h : m.m1 str = none) :
    m.find str = m.findByValue str ∧
      (∀ k, m.m2 str = some k → m.find str = k) ∧ (m.m2 str = none → m.find str = "") := by
  refine ⟨by simp [find, findByValue, h], ?_, ?_⟩
  · intro k hk
    simp [find, h, hk]
  · intro hn
    simp [find, h, hn]

theorem find_fallback_witness :
    ((newBDMap none).insert "five" "5").m1 "5" = none ∧
      ((newBDMap none).insert "five" "5").find "5" = "five" ∧
      ((newBDMap none).insert "five" "5").find "5" =
        ((newBDMap none).insert "five" "5").findByValue "5" :=
  have h := find_fallback ((newBDMap none).insert "five" "5") "5" (by decide)
  ⟨by decide, h.2.1 "five" (by decide), h.1⟩

/-- C7: from every container state, after `insert(k, v1)` and then
`insert(k, v2)`, `findByKey(k)` is `v2` and the entry of `m2` for `v1` is
still there: `findByValue(v1)` is `k`. -/
theorem overwrite_key (m : BidirectionalMap) (k v1 v2 : String) :
    ((m.insert k v1).insert k v2).findByKey k = v2 ∧
      ((m.insert k v1).insert k v2).findByValue v1 = k := by
  refine ⟨by simp [findByKey, insert_m1, set_same], ?_⟩
  by_cases h : v1 = v2
  · subst h
    simp [findByValue, insert_m2, set_same]
  · simp [findByValue, insert_m2, set_same, set_other _ _ _ _ h]

/-- C8: for a source map `l` (its keys are pairwise distinct, as those of
every Go map) whose values are pairwise distinct and every order `l2` in which
`range` yields its entries, `newBDMap` gives the same container; its `m1` is the source map and its `m2` the inverse of the source
map, so `findByKey(k)` is `v` and `findByValue(v)` is `k` for every entry
`(k, v)`, and the two lookups return the empty string outside the keys,
respectively the values, of the source map. -/
theorem newBDMap_distinct_values (l l2 : List (String × String)) (hp : l2.Perm l)
    (hk : (l.map Prod.fst).Nodup) (hv : (l.map Prod.snd).Nodup) :
    newBDMap (some l2) = newBDMap (some l) ∧
      (∀ k v, (newBDMap (some l2)).m1 k = some v ↔ (k, v) ∈ l) ∧
      (∀ k v, (newBDMap (some l2)).m2 v = some k ↔ (k, v) ∈ l) ∧
      (∀ k v, (k, v) ∈ l →
        (newBDMap (some l2)).findByKey k = v ∧ (newBDMap (some l2)).findByValue v = k) ∧
      (∀ s, s ∉ l.map Prod.fst → (newBDMap (some l2)).findByKey s = "") ∧
      (∀ s, s ∉ l.map Prod.snd → (newBDMap (some l2)).findByValue s = "") := by
  have heq := newBDMap_perm hp hk hv
  rw [heq]
  refine ⟨rfl, newBDMap_m1_iff l hk, newBDMap_m2_iff l hv, ?_, ?_, ?_⟩
  · intro k v hmem
    simp [findByKey, findByValue, (newBDMap_m1_iff l hk k v).mpr hmem,
      (newBDMap_m2_iff l hv k v).mpr hmem]
  · intro s hs
    have hfr : ∀ q ∈ l, q.1 ≠ s := fun q hq hqs => hs (List.mem_map.mpr ⟨q, hq, hqs⟩)
    simp [findByKey, newBDMap_some, insertMany_m1_frame _ _ _ hfr, GoMap.empty]
  · intro s hs
    have hfr : ∀ q ∈ l, q.2 ≠ s := fun q hq hqs => hs (List.mem_map.mpr ⟨q, hq, hqs⟩)
    simp [findByValue, newBDMap_some, insertMany_m2_frame _ _ _ hfr, GoMap.empty]

theorem newBDMap_distinct_values_witness :
    [("two", "2"), ("one", "1"), ("three", "3")].Perm [("one", "1"), ("two", "2"), ("three", "3")] ∧
      ([("one", "1"), ("two", "2"), ("three", "3")].map Prod.fst).Nodup ∧
      ([("one", "1"), ("two", "2"), ("three", "3")].map Prod.snd).Nodup ∧
      newBDMap (some [("two", "2"), ("one", "1"), ("three", "3")]) =
        newBDMap (some [("one", "1"), ("two", "2"), ("three", "3")]) ∧
      (newBDMap (some [("two", "2"), ("one", "1"), ("three", "3")])).findByKey "two" = "2" ∧
      (newBDMap (some [("two", "2"), ("one", "1"), ("three", "3")])).findByValue "2" = "two" ∧
      (newBDMap (some [("two", "2"), ("one", "1"), ("three", "3")])).findByKey "2" = "" :=
  have h := newBDMap_distinct_values [("one", "1"), ("two", "2"), ("three", "3")]
    [("two", "2"), ("one", "1"), ("three", "3")] (List.Perm.swap _ _ _) (by decide) (by decide)
  ⟨List.Perm.swap _ _ _, by decide, by decide, h.1, (h.2.2.2.1 "two" "2" (by decide)).1,
    (h.2.2.2.1 "two" "2" (by decide)).2, h.2.2.2.2.1 "2" (by decide)⟩

/-- C9: whatever the order in which `range` yields the entries of
`{"one": "1", "two": "2", "three": "3"}`, the container of `main` after
`insert("four", "4")` and `insert("five", "5")` answers `findByKey("one")` with
`"1"`, `findByKey("ten")` with `""`, `findByValue("1")` with `"one"`,
`findByValue("10")` with `""`, `find("five")` with `"5"`, `find("5")` with
`"five"`, and `find("twenty")` and `find("20")` with `""`. -/
theorem main_scenario (order : List (String × String)) (h : order.Perm mainEntries) :
    (mainBDMap order).findByKey "one" = "1" ∧ (mainBDMap order).findByKey "ten" = "" ∧
      (mainBDMap order).findByValue "1" = "one" ∧ (mainBDMap order).findByValue "10" = "" ∧
      (mainBDMap order).find "five" = "5" ∧ (mainBDMap order).find "5" = "five" ∧
      (mainBDMap order).find "twenty" = "" ∧ (mainBDMap order).find "20" = "" := by
  have heq : newBDMap (some order) = newBDMap (some mainEntries) :=
    newBDMap_perm h (by decide) (by decide)
  unfold mainBDMap
  rw [heq]
  decide

theorem main_scenario_witness :
    [("three", "3"), ("one", "1"), ("two", "2")].Perm mainEntries ∧
      (mainBDMap [("three", "3"), ("one", "1"), ("two", "2")]).findByKey "one" = "1" ∧
      (mainBDMap [("three", "3"), ("one", "1"), ("two", "2")]).find "5" = "five" ∧
      (mainBDMap [("three", "3"), ("one", "1"), ("two", "2")]).find "20" = "" :=
  have hp : [("three", "3"), ("one", "1"), ("two", "2")].Perm mainEntries :=
    (List.Perm.swap ("one", "1") ("three", "3") [("two", "2")]).trans
      (List.Perm.cons ("one", "1") (List.Perm.swap ("two", "2") ("three", "3") []))
  have h := main_scenario [("three", "3"), ("one", "1"), ("two", "2")] hp
  ⟨hp, h.1, h.2.2.2.2.2.1, h.2.2.2.2.2.2.2⟩

/-- C10: `findByKey(s)` is `m1[s]` when `s` is a key of `m1` and the empty
string otherwise; `findByValue(s)` is `m2[s]` when `s` is a key of `m2` and the
empty string otherwise; and `findByValue(s)` on a container is `findByKey(s)`
on the container with `m1` and `m2` exchanged. -/
theorem directional_lookups (m : BidirectionalMap) (s : String) :
    (∀ v, m.m1 s = some v → m.findByKey s = v) ∧ (m.m1 s = none → m.findByKey s = "") ∧
      (∀ k, m.m2 s = some k → m.findByValue s = k) ∧ (m.m2 s = none → m.findByValue s = "") ∧
      m.findByValue s = m.swap.findByKey s := by
  refine ⟨?_, ?_, ?_, ?_, rfl⟩
  · intro v h
    simp [findByKey, h]
  · intro h
    simp [findByKey, h]
  · intro k h
    simp [findByValue, h]
  · intro h
    simp [findByValue, h]

/-! Facts about the program with explicit panics. -/

/-- The zero value `BidirectionalMap{}` is not a container of `newBDMap`:
`insert` panics on it. -/
theorem checked_insert_zero_value (key value : String) :
    (Checked.BidirectionalMap.mk none none).insert key value =
      Except.error "assignment to entry in nil map" := rfl

theorem checked_insert_allocated (m : BidirectionalMap) (key value : String) :
    (Checked.allocated m).insert key value = Except.ok (Checked.allocated (m.insert key value)) :=
  rfl

theorem checked_rangeInsert_allocated (m : BidirectionalMap) (l : List (String × String)) :
    Checked.rangeInsert (Checked.allocated m) l = Except.ok (Checked.allocated (rangeInsert m l)) := by
  induction l generalizing m with
  | nil => rfl
  | cons p rest ih =>
    obtain ⟨k, v⟩ := p
    simp only [Checked.rangeInsert, checked_insert_allocated, rangeInsert]
    exact ih _

theorem checked_insertMany_allocated (m : BidirectionalMap) (l : List (String × String)) :
    Checked.insertMany (Checked.allocated m) l = Except.ok (Checked.allocated (insertMany m l)) := by
  induction l generalizing m with
  | nil => rfl
  | cons p rest ih =>
    obtain ⟨k, v⟩ := p
    simp only [Checked.insertMany, checked_insert_allocated, insertMany]
    exact ih _

theorem checked_newBDMap_allocated (src : Option (List (String × String))) :
    Checked.newBDMap src = Except.ok (Checked.allocated (newBDMap src)) := by
  cases src with
  | none => rfl
  | some l => exact checked_rangeInsert_allocated { m1 := GoMap.empty, m2 := GoMap.empty } l

/-- C11: `newBDMap` returns a container for every source map, `nil` or not,
without a panic; on that container every sequence of `insert` calls returns
without a panic, and so does one more `insert(key, value)` for all strings
`key` and `value`; the three lookups, which cannot panic, return on the
resulting container what they return on the container with allocated maps. -/
theorem insert_never_fails (src : Option (List (String × String)))
    (ops : List (String × String)) (key value : String) :
    Checked.newBDMap src = Except.ok (Checked.allocated (newBDMap src)) ∧
      Checked.insertMany (Checked.allocated (newBDMap src)) ops =
        Except.ok (Checked.allocated (insertMany (newBDMap src) ops)) ∧
      (Checked.allocated (insertMany (newBDMap src) ops)).insert key value =
        Except.ok (Checked.allocated ((insertMany (newBDMap src) ops).insert key value)) ∧
      ∀ s, (Checked.allocated (insertMany (newBDMap src) ops)).findByKey s =
          (insertMany (newBDMap src) ops).findByKey s ∧
        (Checked.allocated (insertMany (newBDMap src) ops)).findByValue s =
          (insertMany (newBDMap src) ops).findByValue s ∧
        (Checked.allocated (insertMany (newBDMap src) ops)).find s =
          (insertMany (newBDMap src) ops).find s :=
  ⟨checked_newBDMap_allocated src, checked_insertMany_allocated _ ops,
    checked_insert_allocated _ key value, fun _ => ⟨rfl, rfl, rfl⟩⟩

/-- C12: `newBDMap(nil)` is the container that `newBDMap` gives on a source
map without entries, and on it `findByKey(s)`, `findByValue(s)` and `find(s)`
return the empty string for every string `s`. -/
theorem newBDMap_nil (s : String) :
    newBDMap none = newBDMap (some []) ∧ (newBDMap none).findByKey s = "" ∧
      (newBDMap none).findByValue s = "" ∧ (newBDMap none).find s = "" :=
  ⟨rfl, rfl, rfl, rfl⟩

/-- C13: after `insert(k, v)` made twice in a row `findByKey(k)` is `v` and
`findByValue(v)` is `k`, and the second call leaves both maps as the first
call left them. -/
theorem insert_idempotent (m : BidirectionalMap) (k v : String) :
    ((m.insert k v).insert k v).findByKey k = v ∧
      ((m.insert k v).insert k v).findByValue v = k ∧
      (m.insert k v).insert k v = m.insert k v := by
  have h1 : ∀ (f : GoMap) (a b : String), (f.set a b).set a b = f.set a b := by
    intro f a b
    funext x
    by_cases hx : x = a <;> simp [GoMap.set, hx]
  refine ⟨by simp [findByKey, insert_m1, set_same],
    by simp [findByValue, insert_m2, set_same], ?_⟩
  simp only [BidirectionalMap.insert, h1]

/-- C14: `insert(key, value)` writes `m1[key] = value` and `m2[value] = key`
and nothing else: every other slot of `m1` and every other slot of `m2` is as
before, present or not, and a string that was a key of `m1`, or of `m2`, still
is one. -/
theorem insert_frame (m : BidirectionalMap) (key value : String) :
    (m.insert key value).m1 key = some value ∧ (m.insert key value).m2 value = some key ∧
      (∀ k2, k2 ≠ key → (m.insert key value).m1 k2 = m.m1 k2) ∧
      (∀ v2, v2 ≠ value → (m.insert key value).m2 v2 = m.m2 v2) ∧
      (∀ x, (m.m1 x).isSome → ((m.insert key value).m1 x).isSome) ∧
      (∀ x, (m.m2 x).isSome → ((m.insert key value).m2 x).isSome) := by
  refine ⟨set_same _ _ _, set_same _ _ _, fun k2 h => set_other _ _ _ _ h,
    fun v2 h => set_other _ _ _ _ h, ?_, ?_⟩
  · intro x hx
    by_cases h : x = key
    · simp [insert_m1, GoMap.set, h]
    · rw [insert_m1, set_other _ _ _ _ h]
      exact hx
  · intro x hx
    by_cases h : x = value
    · simp [insert_m2, GoMap.set, h]
    · rw [insert_m2, set_other _ _ _ _ h]
      exact hx

/-- C15, as stated, fails: after `insert("a", "x")` and `insert("b", "x")` on
the empty container `m1["a"]` is `"x"`, and after `insert("a", "y")` the entry
`m2["x"]` is `"b"`, as it was before, so `findByValue("x")` is not `"a"`. -/
theorem stale_entry_not_at_key :
    (insertMany (newBDMap none) [("a", "x"), ("b", "x")]).m1 "a" = some "x" ∧ "y" ≠ "x" ∧
      ((insertMany (newBDMap none) [("a", "x"), ("b", "x")]).insert "a" "y").m2 "x" = some "b" ∧
      ((insertMany (newBDMap none) [("a", "x"), ("b", "x")]).insert "a" "y").findByValue "x"
        ≠ "a" := by
  decide

/-- C15, amended: in every state reached from `newBDMap` by `insert` calls, for
every `key` with `m1[key] == oldValue` whose entry `m2[oldValue]` points at
`key`, and every `value` other than `oldValue`, after `insert(key, value)` the
entry `m2[oldValue]` is still there and points at `key`, so
`findByValue(oldValue)` is `key`, while `findByKey(key)` is `value` and `m1`
no longer maps `key` to `oldValue`. -/
theorem stale_reverse_entry (src : Option (List (String × String)))
    (ops : List (String × String)) (key oldValue value : String)
    (h1 : (insertMany (newBDMap src) ops).m1 key = some oldValue)
    (h2 : (insertMany (newBDMap src) ops).m2 oldValue = some key)
    (hne : value ≠ oldValue) :
    ((insertMany (newBDMap src) ops).insert key value).m2 oldValue = some key ∧
      ((insertMany (newBDMap src) ops).insert key value).findByValue oldValue = key ∧
      ((insertMany (newBDMap src) ops).insert key value).findByKey key = value ∧
      ((insertMany (newBDMap src) ops).insert key value).m1 key ≠
        (insertMany (newBDMap src) ops).m1 key := by
  have hm2 : ((insertMany (newBDMap src) ops).insert key value).m2 oldValue = some key := by
    rw [insert_m2, set_other _ _ _ _ (Ne.symm hne)]
    exact h2
  refine ⟨hm2, by simp [findByValue, hm2], by simp [findByKey, insert_m1, set_same], ?_⟩
  rw [insert_m1, set_same, h1]
  intro h
  exact hne (Option.some.inj h)

theorem stale_reverse_entry_witness :
    (insertMany (newBDMap none) [("a", "x")]).m1 "a" = some "x" ∧
      (insertMany (newBDMap none) [("a", "x")]).m2 "x" = some "a" ∧ "y" ≠ "x" ∧
      ((insertMany (newBDMap none) [("a", "x")]).insert "a" "y").findByValue "x" = "a" ∧
      ((insertMany (newBDMap none) [("a", "x")]).insert "a" "y").findByKey "a" = "y" :=
  have h := stale_reverse_entry none [("a", "x")] "a" "x" "y" (by decide) (by decide) (by decide)
  ⟨by decide, by decide, by decide, h.2.1, h.2.2.1⟩

/-! Facts about colliding values. -/

theorem insertMany_append (m : BidirectionalMap) (l1 l2 : List (String × String)) :
    insertMany m (l1 ++ l2) = insertMany (insertMany m l1) l2 := by
  induction l1 generalizing m with
  | nil => rfl
  | cons p rest ih =>
    obtain ⟨k, v⟩ := p
    simp only [List.cons_append, insertMany]
    exact ih _

/-- The slot `m2[v]` after a sequence of calls is the key of the last call
with the value `v`, or what it was when there is no such call. -/
theorem insertMany_m2_lastKeyFor (m : BidirectionalMap) (l : List (String × String))
    (v : String) :
    (insertMany m l).m2 v =
      match lastKeyFor v l with
      | some k => some k
      | none => m.m2 v := by
  induction l generalizing m with
  | nil => rfl
  | cons p rest ih =>
    obtain ⟨a, b⟩ := p
    simp only [insertMany, lastKeyFor]
    rw [ih]
    cases lastKeyFor v rest with
    | some k => rfl
    | none =>
      by_cases hb : b = v
      · subst hb
        simp [insert_m2, set_same]
      · have hvb : v ≠ b := fun h => hb h.symm
        simp [insert_m2, set_other _ _ _ _ hvb, hb]

theorem lastKeyFor_mem (v : String) (l : List (String × String)) (k : String)
    (h : lastKeyFor v l = some k) : (k, v) ∈ l := by
  induction l with
  | nil => cases h
  | cons p rest ih =>
    obtain ⟨a, b⟩ := p
    simp only [lastKeyFor] at h
    cases hr : lastKeyFor v rest with
    | some k2 =>
      rw [hr] at h
      simp only [Option.some.injEq] at h
      subst h
      exact List.mem_cons_of_mem _ (ih hr)
    | none =>
      rw [hr] at h
      by_cases hb : b = v
      · simp only [hb, if_true, Option.some.injEq] at h
        subst h; subst hb
        exact List.mem_cons_self _ _
      · simp [hb] at h

theorem lastKeyFor_isSome (v : String) (l : List (String × String)) (k : String)
    (h : (k, v) ∈ l) : ∃ k2, lastKeyFor v l = some k2 := by
  induction l with
  | nil => cases h
  | cons p rest ih =>
    obtain ⟨a, b⟩ := p
    simp only [lastKeyFor]
    cases hr : lastKeyFor v rest with
    | some k2 => exact ⟨k2, rfl⟩
    | none =>
      rcases List.mem_cons.mp h with heq | hmem
      · obtain ⟨rfl, rfl⟩ := Prod.mk.inj heq
        exact ⟨k, by simp⟩
      · obtain ⟨k2, hk2⟩ := ih hmem
        rw [hr] at hk2
        cases hk2

/-- Ranging over a source map with the entry `(k, v)` last leaves `m2[v]` at `k`. -/
theorem newBDMap_entry_last (l : List (String × String)) (k v : String) :
    (newBDMap (some (l ++ [(k, v)]))).findByValue v = k := by
  rw [newBDMap_some, insertMany_append]
  simp [insertMany, findByValue, insert_m2, set_same]

/-- Every entry of a source map is yielded last in some order. -/
theorem exists_perm_entry_last (l : List (String × String)) (p : String × String) (h : p ∈ l) :
    ∃ front, (front ++ [p]).Perm l := by
  obtain ⟨s, t, rfl⟩ := List.append_of_mem h
  exact ⟨s ++ t, (List.perm_append_singleton p (s ++ t)).trans List.perm_middle.symm⟩

/-- C16: for a source map `l` (pairwise distinct keys) in which the distinct
keys `k1` and `k2` carry the same value `v`, and every order `l2` in which
`range` yields its entries, `m1` of `newBDMap` is the source map and
`findByValue(v)` is the key of the entry with the value `v` that was yielded
last; and there are two orders for which `findByValue(v)` differs. -/
theorem newBDMap_colliding_values (l : List (String × String)) (k1 k2 v : String)
    (hk : (l.map Prod.fst).Nodup) (h1 : (k1, v) ∈ l) (h2 : (k2, v) ∈ l) (hne : k1 ≠ k2) :
    (∀ l2, l2.Perm l →
        (∀ k w, (newBDMap (some l2)).m1 k = some w ↔ (k, w) ∈ l) ∧
        ∃ k, lastKeyFor v l2 = some k ∧ (k, v) ∈ l ∧ (newBDMap (some l2)).findByValue v = k) ∧
      ∃ l2 l3, l2.Perm l ∧ l3.Perm l ∧
        (newBDMap (some l2)).findByValue v ≠ (newBDMap (some l3)).findByValue v := by
  constructor
  · intro l2 hp
    have hk2 : (l2.map Prod.fst).Nodup := ((hp.map Prod.fst).nodup_iff).mpr hk
    refine ⟨fun k w => (newBDMap_m1_iff l2 hk2 k w).trans hp.mem_iff, ?_⟩
    obtain ⟨k, hlast⟩ := lastKeyFor_isSome v l2 k1 (hp.mem_iff.mpr h1)
    refine ⟨k, hlast, hp.mem_iff.mp (lastKeyFor_mem v l2 k hlast), ?_⟩
    have hm2 := insertMany_m2_lastKeyFor { m1 := GoMap.empty, m2 := GoMap.empty } l2 v
    rw [hlast] at hm2
    simp only [findByValue, newBDMap_some, hm2]
  · obtain ⟨f1, hf1⟩ := exists_perm_entry_last l (k1, v) h1
    obtain ⟨f2, hf2⟩ := exists_perm_entry_last l (k2, v) h2
    refine ⟨f1 ++ [(k1, v)], f2 ++ [(k2, v)], hf1, hf2, ?_⟩
    rw [newBDMap_entry_last, newBDMap_entry_last]
    exact hne

theorem newBDMap_colliding_values_witness :
    ([("a", "v"), ("b", "v")].map Prod.fst).Nodup ∧
      (newBDMap (some [("a", "v"), ("b", "v")])).findByValue "v" = "b" ∧
      (newBDMap (some [("b", "v"), ("a", "v")])).findByValue "v" = "a" ∧
      ∃ l2 l3, l2.Perm [("a", "v"), ("b", "v")] ∧ l3.Perm [("a", "v"), ("b", "v")] ∧
        (newBDMap (some l2)).findByValue "v" ≠ (newBDMap (some l3)).findByValue "v" :=
  have h := newBDMap_colliding_values [("a", "v"), ("b", "v")] "a" "b" "v" (by decide)
    (by decide) (by decide) (by decide)
  ⟨by decide, by decide, by decide, h.2⟩

/-- C17: for keys `k1` and `k2` that differ and a value `v`, after
`insert(k1, v)` and then `insert(k2, v)` the lookup `findByValue(v)` returns
`k2`, and `findByKey(k1)` and `findByKey(k2)` both return `v`. -/
theorem duplicate_value_last_wins (m : BidirectionalMap) (k1 k2 v : String) (hne : k1 ≠ k2) :
    ((m.insert k1 v).insert k2 v).findByValue v = k2 ∧
      ((m.insert k1 v).insert k2 v).findByKey k1 = v ∧
      ((m.insert k1 v).insert k2 v).findByKey k2 = v := by
  refine ⟨by simp [findByValue, insert_m2, set_same], ?_,
    by simp [findByKey, insert_m1, set_same]⟩
  simp [findByKey, insert_m1, set_other _ _ _ _ hne, set_same]

theorem duplicate_value_last_wins_witness :
    "a" ≠ "b" ∧ (((newBDMap none).insert "a" "v").insert "b" "v").findByValue "v" = "b" ∧
      (((newBDMap none).insert "a" "v").insert "b" "v").findByKey "a" = "v" ∧
      (((newBDMap none).insert "a" "v").insert "b" "v").findByKey "b" = "v" :=
  ⟨by decide, duplicate_value_last_wins (newBDMap none) "a" "b" "v" (by decide)⟩

/-! Facts about the states reached from `newBDMap` by `insert` calls. -/

/-- A state reached from `newBDMap` is the empty container after the inserts
of the loop followed by the later ones. -/
theorem reached_eq (src : Option (List (String × String))) (ops : List (String × String)) :
    insertMany (newBDMap src) ops =
      insertMany { m1 := GoMap.empty, m2 := GoMap.empty } (entriesOf src ++ ops) := by
  rw [insertMany_append]
  cases src with
  | none => rfl
  | some l => rw [newBDMap_some]; rfl

/-- Calls that are consistent with each other and with the calls that filled
the maps keep the two maps mirrors of each other. -/
theorem mirror_of_consistent (m : BidirectionalMap) (done rest : List (String × String))
    (hc : Consistent (done ++ rest)) (hm : Mirror m)
    (h1 : ∀ k v, m.m1 k = some v → (k, v) ∈ done)
    (h2 : ∀ k v, m.m2 v = some k → (k, v) ∈ done) : Mirror (insertMany m rest) := by
  induction rest generalizing m done with
  | nil => exact hm
  | cons p tail ih =>
    obtain ⟨k, v⟩ := p
    have hkv : (k, v) ∈ done ++ (k, v) :: tail :=
      List.mem_append_right _ (List.mem_cons_self _ _)
    have hag : Agrees m k v := by
      constructor
      · cases hv : m.m1 k with
        | none => exact Or.inl rfl
        | some w =>
          have hw : (k, w) ∈ done ++ (k, v) :: tail := List.mem_append_left _ (h1 k w hv)
          have heq : w = v := (hc (k, w) hw (k, v) hkv).mp rfl
          exact Or.inr (by rw [heq])
      · cases hk : m.m2 v with
        | none => exact Or.inl rfl
        | some a =>
          have ha : (a, v) ∈ done ++ (k, v) :: tail := List.mem_append_left _ (h2 a v hk)
          have heq : a = k := (hc (a, v) ha (k, v) hkv).mpr rfl
          exact Or.inr (by rw [heq])
    have hc2 : Consistent ((done ++ [(k, v)]) ++ tail) := by
      rw [List.append_assoc]
      exact hc
    apply ih (m.insert k v) (done ++ [(k, v)]) hc2 (hm.insert_of_agrees hag)
    · intro a b hab
      rw [insert_m1] at hab
      by_cases ha : a = k
      · subst ha
        rw [set_same] at hab
        rw [← Option.some.inj hab]
        exact List.mem_append_right _ (List.mem_singleton_self _)
      · rw [set_other _ _ _ _ ha] at hab
        exact List.mem_append_left _ (h1 a b hab)
    · intro a b hab
      rw [insert_m2] at hab
      by_cases hb : b = v
      · subst hb
        rw [set_same] at hab
        rw [← Option.some.inj hab]
        exact List.mem_append_right _ (List.mem_singleton_self _)
      · rw [set_other _ _ _ _ hb] at hab
        exact List.mem_append_left _ (h2 a b hab)

/-- C18, as stated, fails in its second part: `newBDMap` on the source map
`{"a": "v", "b": "v"}`, ranged over in this order, followed by the single call
`insert("c", "w")`, which re-inserts no key and no value and overwrites
nothing, leaves `m1["a"]` equal to `"v"` while `m2["v"]` is `"b"`, not `"a"`. -/
theorem mirror_fails_on_colliding_source :
    Consistent [("c", "w")] ∧
      AgreesAll (newBDMap (some [("a", "v"), ("b", "v")])) [("c", "w")] ∧
      ¬ ((insertMany (newBDMap (some [("a", "v"), ("b", "v")])) [("c", "w")]).m1 "a" = some "v" ↔
        (insertMany (newBDMap (some [("a", "v"), ("b", "v")])) [("c", "w")]).m2 "v"
          = some "a") := by
  refine ⟨?_, ⟨⟨?_, ?_⟩, trivial⟩, ?_⟩
  · unfold Consistent
    decide
  · decide
  · decide
  · decide

/-- C18, amended: `insert(key, value)` keeps the two maps mirrors of each other
when, before the call, `key` is absent from `m1` or mapped to `value` and
`value` is absent from `m2` or mapped to `key`; hence the maps are mirrors of
each other after `newBDMap` and any `insert` calls, when among all the inserts
made, those that the loop of `newBDMap` makes for the entries of the source map
included, no key comes with two different values and no value with two
different keys. -/
theorem mirror_preserved :
    (∀ (m : BidirectionalMap) (key value : String),
        Mirror m → Agrees m key value → Mirror (m.insert key value)) ∧
      ∀ (src : Option (List (String × String))) (ops : List (String × String)),
        Consistent (entriesOf src ++ ops) → Mirror (insertMany (newBDMap src) ops) := by
  refine ⟨fun m key value hm ha => hm.insert_of_agrees ha, ?_⟩
  intro src ops hc
  rw [reached_eq]
  apply mirror_of_consistent _ [] _ hc mirror_empty
  · intro k v h
    cases h
  · intro k v h
    cases h

theorem mirror_preserved_witness :
    Consistent (entriesOf (some [("one", "1"), ("two", "2")]) ++ [("three", "3"), ("one", "1")]) ∧
      ((insertMany (newBDMap (some [("one", "1"), ("two", "2")]))
          [("three", "3"), ("one", "1")]).m1 "one" = some "1" ↔
        (insertMany (newBDMap (some [("one", "1"), ("two", "2")]))
          [("three", "3"), ("one", "1")]).m2 "1" = some "one") ∧
      Agrees (newBDMap none) "a" "b" ∧
      (((newBDMap none).insert "a" "b").m1 "a" = some "b" ↔
        ((newBDMap none).insert "a" "b").m2 "b" = some "a") :=
  have hc : Consistent
      (entriesOf (some [("one", "1"), ("two", "2")]) ++ [("three", "3"), ("one", "1")]) := by
    unfold Consistent
    decide
  have ha : Agrees (newBDMap none) "a" "b" := ⟨Or.inl rfl, Or.inl rfl⟩
  ⟨hc, mirror_preserved.2 _ _ hc "one" "1", ha,
    mirror_preserved.1 (newBDMap none) "a" "b" mirror_empty ha "a" "b"⟩

/-- Every value of `m1` stays a key of `m2`, and every key stored in `m2` a key
of `m1`, under a sequence of calls. -/
theorem linked_insertMany (m : BidirectionalMap) (ops : List (String × String))
    (h1 : ∀ k v, m.m1 k = some v → (m.m2 v).isSome)
    (h2 : ∀ v k, m.m2 v = some k → (m.m1 k).isSome) :
    (∀ k v, (insertMany m ops).m1 k = some v → ((insertMany m ops).m2 v).isSome) ∧
      (∀ v k, (insertMany m ops).m2 v = some k → ((insertMany m ops).m1 k).isSome) := by
  induction ops generalizing m with
  | nil => exact ⟨h1, h2⟩
  | cons p rest ih =>
    obtain ⟨a, b⟩ := p
    apply ih (m.insert a b)
    · intro k v h
      rw [insert_m1] at h
      rw [insert_m2]
      by_cases hv : v = b
      · rw [hv, set_same]; rfl
      · rw [set_other _ _ _ _ hv]
        by_cases hk : k = a
        · rw [hk, set_same] at h
          exact absurd (Option.some.inj h).symm hv
        · rw [set_other _ _ _ _ hk] at h
          exact h1 k v h
    · intro v k h
      rw [insert_m2] at h
      rw [insert_m1]
      by_cases hk : k = a
      · rw [hk, set_same]; rfl
      · rw [set_other _ _ _ _ hk]
        by_cases hv : v = b
        · rw [hv, set_same] at h
          exact absurd (Option.some.inj h).symm hk
        · rw [set_other _ _ _ _ hv] at h
          exact h2 v k h

/-- C19: in every state reached from `newBDMap` by `insert` calls, overwrites
included, every value stored in `m1` is a key of `m2` and every key stored in
`m2` is a key of `m1`. -/
theorem forward_reverse_linked (src : Option (List (String × String)))
    (ops : List (String × String)) :
    (∀ k v, (insertMany (newBDMap src) ops).m1 k = some v →
        ((insertMany (newBDMap src) ops).m2 v).isSome) ∧
      (∀ v k, (insertMany (newBDMap src) ops).m2 v = some k →
        ((insertMany (newBDMap src) ops).m1 k).isSome) := by
  rw [reached_eq]
  apply linked_insertMany
  · intro k v h
    cases h
  · intro v k h
    cases h

/-- Calls without the empty string leave no empty string in the maps. -/
theorem nonempty_insertMany (m : BidirectionalMap) (ops : List (String × String))
    (hops : ∀ p ∈ ops, p.1 ≠ "" ∧ p.2 ≠ "")
    (h1 : ∀ k v, m.m1 k = some v → v ≠ "") (h2 : ∀ v k, m.m2 v = some k → k ≠ "") :
    (∀ k v, (insertMany m ops).m1 k = some v → v ≠ "") ∧
      (∀ v k, (insertMany m ops).m2 v = some k → k ≠ "") := by
  induction ops generalizing m with
  | nil => exact ⟨h1, h2⟩
  | cons p rest ih =>
    obtain ⟨a, b⟩ := p
    have hab := hops (a, b) (List.mem_cons_self _ _)
    apply ih (m.insert a b) (fun q hq => hops q (List.mem_cons_of_mem _ hq))
    · intro k v h
      rw [insert_m1] at h
      by_cases hk : k = a
      · rw [hk, set_same] at h
        rw [← Option.some.inj h]
        exact hab.2
      · rw [set_other _ _ _ _ hk] at h
        exact h1 k v h
    · intro v k h
      rw [insert_m2] at h
      by_cases hv : v = b
      · rw [hv, set_same] at h
        rw [← Option.some.inj h]
        exact hab.1
      · rw [set_other _ _ _ _ hv] at h
        exact h2 v k h

/-- C20: in every state reached from `newBDMap` by `insert` calls in which no
key and no value, of the source map or of a call, is the empty string, for
every string `s`: `findByKey(s)` is the empty string exactly when `s` is not a
key of `m1`, `findByValue(s)` exactly when `s` is not a key of `m2`, and
`find(s)` exactly when `s` is a key of neither. -/
theorem sentinel_unambiguous (src : Option (List (String × String)))
    (ops : List (String × String))
    (hne : ∀ p ∈ entriesOf src ++ ops, p.1 ≠ "" ∧ p.2 ≠ "") (s : String) :
    ((insertMany (newBDMap src) ops).findByKey s = "" ↔
        (insertMany (newBDMap src) ops).m1 s = none) ∧
      ((insertMany (newBDMap src) ops).findByValue s = "" ↔
        (insertMany (newBDMap src) ops).m2 s = none) ∧
      ((insertMany (newBDMap src) ops).find s = "" ↔
        (insertMany (newBDMap src) ops).m1 s = none ∧
          (insertMany (newBDMap src) ops).m2 s = none) := by
  rw [reached_eq]
  obtain ⟨h1, h2⟩ := nonempty_insertMany { m1 := GoMap.empty, m2 := GoMap.empty }
    (entriesOf src ++ ops) hne (fun k v h => by cases h) (fun v k h => by cases h)
  generalize insertMany { m1 := GoMap.empty, m2 := GoMap.empty } (entriesOf src ++ ops) = st
    at h1 h2
  refine ⟨?_, ?_, ?_⟩
  · unfold findByKey
    cases hs : st.m1 s with
    | none => simp
    | some v => simpa using h1 s v hs
  · unfold findByValue
    cases hs : st.m2 s with
    | none => simp
    | some k => simpa using h2 s k hs
  · unfold find
    cases hs : st.m1 s with
    | some v => simpa using h1 s v hs
    | none =>
      cases hs2 : st.m2 s with
      | none => simp
      | some k => simpa using h2 s k hs2

theorem sentinel_unambiguous_witness :
    (∀ p ∈ entriesOf (some [("one", "1")]) ++ [("two", "2")], p.1 ≠ "" ∧ p.2 ≠ "") ∧
      ((insertMany (newBDMap (some [("one", "1")])) [("two", "2")]).findByKey "ten" = "" ↔
        (insertMany (newBDMap (some [("one", "1")])) [("two", "2")]).m1 "ten" = none) ∧
      ((insertMany (newBDMap (some [("one", "1")])) [("two", "2")]).find "2" = "" ↔
        (insertMany (newBDMap (some [("one", "1")])) [("two", "2")]).m1 "2" = none ∧
          (insertMany (newBDMap (some [("one", "1")])) [("two", "2")]).m2 "2" = none) :=
  have hne : ∀ p ∈ entriesOf (some [("one", "1")]) ++ [("two", "2")], p.1 ≠ "" ∧ p.2 ≠ "" := by
    decide
  ⟨hne, (sentinel_unambiguous (some [("one", "1")]) [("two", "2")] hne "ten").1,
    (sentinel_unambiguous (some [("one", "1")]) [("two", "2")] hne "2").2.2⟩

end Bimap
